import Mathlib

/-!
Verification of the numerical core of the NLDL tutorial notebooks: the PINN
training loop for a damped mass-spring oscillator, the PHNN/HNN models, the
finite-difference setup for the KdV equation, and the hand-rolled classical
Runge-Kutta integrator.  Machine floating-point arithmetic is embedded as exact
arithmetic over `ℚ` (and over `ℝ` where the source evaluates transcendental
functions); random draws and learned network functions are universally
quantified inputs.
-/

namespace NLDL

/-! ### Constants of the PINN notebook (damped mass-spring system) -/

/-- Damping coefficient `MU = 0.4`. -/
def MU : ℚ := 2 / 5

/-- Spring constant `K = 4`. -/
def K : ℚ := 4

/-- Number of training intervals `N_TRAIN = 20` (the grid has `N_TRAIN + 1` points). -/
def N_TRAIN : ℕ := 20

/-- End of the training time interval, `TMAX_TRAIN = 2`. -/
def TMAX_TRAIN : ℚ := 2

/-- Standard deviation of the additive data noise, `NOISE_STD = 0.`. -/
def NOISE_STD : ℝ := 0

/-- End of the interval the collocation points are drawn from, `TMAX_PHYS = 7`. -/
def TMAX_PHYS : ℚ := 7

/-- Number of physics collocation points, `N_PHYS = 200`. -/
def N_PHYS : ℕ := 200

/-! ### Exact solution of the underdamped oscillator -/

/-- Embedding of `numpy.linspace(a, b, n)` / `torch.linspace(a, b, n)`:
`n` evenly spaced values from `a` to `b` inclusive. -/
def linspace (a b : ℚ) (n : ℕ) : List ℚ :=
  (List.range n).map fun i : ℕ => a + (b - a) * (i : ℚ) / ((n : ℚ) - 1)

/-- Embedding of `exact_solution(t, k, mu)` from the PINN notebook.  The
`assert mu**2 < 4 * k` is modelled by returning `none` (an aborted run) when
the underdamped condition fails; otherwise the closed-form value
`exp(-mu/2*t) * cos(w*t)` with `w = sqrt(4*k - mu^2)/2` is returned. -/
noncomputable def exact_solution (t k mu : ℝ) : Option ℝ :=
  if mu ^ 2 < 4 * k then
    some (Real.exp (-mu / 2 * t) * Real.cos (Real.sqrt (4 * k - mu ^ 2) / 2 * t))
  else
    none

/-- The training times `t_train = torch.linspace(0, TMAX_TRAIN, N_TRAIN + 1)`. -/
def t_train : List ℚ := linspace 0 TMAX_TRAIN (N_TRAIN + 1)

/-- The training targets
`x_train = exact_solution(t_train) + NOISE_STD * torch.randn_like(t_train)`.
The random draw `randn_like` is an arbitrary function `noise`. -/
noncomputable def x_train (noise : ℕ → ℝ) : List ℝ :=
  (List.range (N_TRAIN + 1)).map fun i =>
    (exact_solution ((t_train.getD i 0 : ℚ) : ℝ) (K : ℝ) (MU : ℝ)).getD 0
      + NOISE_STD * noise i

/-- C4: `exact_solution(t, k, mu)` raises an assertion failure (modelled as
`none`), aborting the run, if and only if the underdamped condition fails,
i.e. iff `mu^2 ≥ 4*k`; for `mu^2 < 4*k` it returns normally. -/
theorem exact_solution_asserts_iff_not_underdamped (t k mu : ℝ) :
    exact_solution t k mu = none ↔ mu ^ 2 ≥ 4 * k := by
  unfold exact_solution
  split_ifs with h
  · simp only [reduceCtorEq, false_iff]
    exact fun hge => absurd h (not_lt.mpr hge)
  · simpa using not_lt.mp h

/-- C6: with `MU = 0.4`, `K = 4`, `N_TRAIN = 20`, `TMAX_TRAIN = 2` and
`NOISE_STD = 0`, the first generated training target `x_train[0]`, the value
at time `t = 0`, equals `1.0` exactly (`exp(0) * cos(0) = 1`), whatever the
noise draw was. -/
theorem x_train_head_eq_one (noise : ℕ → ℝ) : (x_train noise).head? = some 1 := by
  have ht0 : t_train.getD 0 0 = 0 := by
    unfold t_train linspace
    norm_num [N_TRAIN, TMAX_TRAIN, List.range_succ_eq_map]
  unfold x_train
  rw [List.head?_map]
  have h21 : List.range (N_TRAIN + 1) = 0 :: List.range' 1 N_TRAIN := by
    simp [List.range_eq_range', List.range'_eq_cons_iff]
  rw [h21]
  simp only [List.head?_cons, Option.map_some', ht0]
  congr 1
  unfold exact_solution
  rw [if_pos (by norm_num [MU, K])]
  norm_num [NOISE_STD, Option.getD_some, Real.exp_zero, Real.cos_zero]

/-! ### The PINN training loop -/

/-- A trainable model `x_θ` together with the two functions returned by one
and two applications of reverse-mode automatic differentiation of the model
output with respect to its input (`time_derivative` in the source applies
`torch.autograd.grad` once; applying it to the result gives the second
derivative).  `P` is the type of the parameter vector `θ`. -/
structure DiffModel (P : Type) where
  val : P → ℚ → ℚ
  d1 : P → ℚ → ℚ
  d2 : P → ℚ → ℚ

/-- Mean of a list of scalars, `torch.mean`. -/
def meanList (l : List ℚ) : ℚ := l.sum / l.length

/-- Embedding of `nn.MSELoss()`: the mean of the squared componentwise differences. -/
def mseLoss (pred target : List ℚ) : ℚ :=
  meanList (List.zipWith (fun a b => (a - b) ^ 2) pred target)

/-- The weight `lambda_ = 1e-1` of the physics loss. -/
def lambda_ : ℚ := 1 / 10

/-- The ODE residual `xddot + MU * xdot + K * x_phys` of `train_pinn`,
with `xdot` and `xddot` the first and second autodiff derivatives. -/
def odeResidual {P : Type} (mdl : DiffModel P) (θ : P) (t : ℚ) : ℚ :=
  mdl.d2 θ t + MU * mdl.d1 θ t + K * mdl.val θ t

/-- Embedding of `train_pinn(model, t_train, x_train, t_phys, nepochs, ...)`
from the PINN notebook.  Each iteration computes the data loss
`mse(model(t_train), x_train)`, adds `lambda_ * mean(ode_residual ** 2)`,
backpropagates and performs one optimizer step (abstracted as `update`, which
receives the loss value that is backpropagated), and appends the loss to the
trace.  Returns the final parameters and the loss trace. -/
def train_pinn {P : Type} (mdl : DiffModel P) (update : P → ℚ → P)
    (tTr xTr tPh : List ℚ) : ℕ → P → P × List ℚ
  | 0, θ => (θ, [])
  | n + 1, θ =>
    let dataLoss := mseLoss (tTr.map (mdl.val θ)) xTr
    let physLoss := meanList (tPh.map fun t => odeResidual mdl θ t ^ 2)
    let loss := dataLoss + lambda_ * physLoss
    let rest := train_pinn mdl update tTr xTr tPh n (update θ loss)
    (rest.1, loss :: rest.2)

/-- One optimization step of `train_pinn`: the parameters after `update` has
consumed the composite loss at the current parameters. -/
def pinnStep {P : Type} (mdl : DiffModel P) (update : P → ℚ → P)
    (tTr xTr tPh : List ℚ) (θ : P) : P :=
  update θ (mseLoss (tTr.map (mdl.val θ)) xTr
    + lambda_ * meanList (tPh.map fun t => odeResidual mdl θ t ^ 2))

/-- C1: in every optimization step of `train_pinn`, the loss that is
backpropagated (and recorded in the trace) equals the mean squared error
between the model prediction at the training times and the observed training
values, plus the fixed scalar weight `0.1` times the mean of the squared ODE
residual `xddot + MU*xdot + K*x` at the collocation points, where `xdot` and
`xddot` come from one and two applications of reverse-mode autodiff of the
model output with respect to the collocation inputs. -/
theorem train_pinn_step_loss {P : Type} (mdl : DiffModel P) (update : P → ℚ → P)
    (tTr xTr tPh : List ℚ) (θ0 : P) (n i : ℕ) (h : i < n) :
    ((train_pinn mdl update tTr xTr tPh n θ0).2).get? i =
      some (mseLoss (tTr.map (mdl.val ((pinnStep mdl update tTr xTr tPh)^[i] θ0))) xTr
        + (1 : ℚ) / 10 * meanList (tPh.map fun t =>
            (mdl.d2 ((pinnStep mdl update tTr xTr tPh)^[i] θ0) t
              + MU * mdl.d1 ((pinnStep mdl update tTr xTr tPh)^[i] θ0) t
              + K * mdl.val ((pinnStep mdl update tTr xTr tPh)^[i] θ0) t) ^ 2)) := by
  induction n generalizing θ0 i with
  | zero => exact absurd h (Nat.not_lt_zero i)
  | succ n ih =>
    cases i with
    | zero =>
      simp only [train_pinn, List.get?_cons_zero, Function.iterate_zero, id_eq]
      rfl
    | succ i =>
      have hi : i < n := Nat.lt_of_succ_lt_succ h
      simp only [train_pinn, List.get?_cons_succ]
      rw [ih (update θ0 _) i hi, Function.iterate_succ_apply]
      rfl

/-- Witness for C1 at a concrete model, optimizer and data set. -/
theorem train_pinn_step_loss_witness :
    1 < 2 ∧
      ((train_pinn ⟨fun θ t => θ * t, fun θ _ => θ, fun _ _ => 0⟩
          (fun θ l => θ - l) [0, 1] [0, 1] [1] 2 (1 : ℚ)).2).get? 1 =
        some (mseLoss ([0, 1].map
            ((⟨fun θ t => θ * t, fun θ _ => θ, fun _ _ => 0⟩ : DiffModel ℚ).val
              ((pinnStep ⟨fun θ t => θ * t, fun θ _ => θ, fun _ _ => 0⟩
                (fun θ l => θ - l) [0, 1] [0, 1] [1])^[1] 1))) [0, 1]
          + (1 : ℚ) / 10 * meanList ([1].map fun t =>
              ((0 : ℚ)
                + MU * ((pinnStep ⟨fun θ t => θ * t, fun θ _ => θ, fun _ _ => 0⟩
                    (fun θ l => θ - l) [0, 1] [0, 1] [1])^[1] 1)
                + K * (((pinnStep ⟨fun θ t => θ * t, fun θ _ => θ, fun _ _ => 0⟩
                    (fun θ l => θ - l) [0, 1] [0, 1] [1])^[1] 1) * t)) ^ 2)) :=
  ⟨by norm_num,
    train_pinn_step_loss ⟨fun θ t => θ * t, fun θ _ => θ, fun _ _ => 0⟩
      (fun θ l => θ - l) [0, 1] [0, 1] [1] 1 2 1 (by norm_num)⟩

/-- Embedding of the generic training loop `train(model, x, dxdt, nepochs, ...)`
of the PHNN notebook (and, with a different loss, of the KdV notebook): for
`i in range(nepochs)` it computes the scalar loss at the current parameters,
backpropagates, applies one optimizer step and appends the loss value to the
trace.  The loss-value type `L` is a parameter: the loop never inspects the
loss value, so any value type (including one with infinities and NaN) gives
the same control flow. -/
def train {P L : Type} (lossOf : P → L) (update : P → L → P) : ℕ → P → P × List L
  | 0, θ => (θ, [])
  | n + 1, θ =>
    let l := lossOf θ
    let rest := train lossOf update n (update θ l)
    (rest.1, l :: rest.2)

/-- C3: for every iteration budget `nepochs`, the training loop performs
exactly `nepochs` optimization steps (the final parameters are the
`nepochs`-fold iterate of the step function) and appends exactly one loss
value per step, so the trace has length `nepochs` afterwards.  The statement
is universally quantified over the loss-value type `L` and the loss function,
so the loop terminates only when the budget is exhausted and cannot detect,
handle or stop on any loss value — in particular not on an infinite or NaN
loss, which is just another value of `L`. -/
theorem train_runs_full_budget {P L : Type} (lossOf : P → L) (update : P → L → P)
    (n : ℕ) (θ0 : P) :
    (train lossOf update n θ0).1 = (fun θ => update θ (lossOf θ))^[n] θ0 ∧
      ((train lossOf update n θ0).2).length = n := by
  induction n generalizing θ0 with
  | zero => exact ⟨rfl, rfl⟩
  | succ n ih =>
    refine ⟨?_, ?_⟩
    · show (train lossOf update n (update θ0 (lossOf θ0))).1 = _
      rw [(ih (update θ0 (lossOf θ0))).1, Function.iterate_succ_apply]
    · show ((train lossOf update n (update θ0 (lossOf θ0))).2).length + 1 = n + 1
      rw [(ih (update θ0 (lossOf θ0))).2]

/-! ### The classical Runge-Kutta integrator -/

section RK4

variable {V : Type} [AddCommGroup V] [Module ℚ V]

/-- One step of the classical 4-stage Runge-Kutta scheme, exactly the body of
the loop in `rk4`:  `k1 = dt*g(x)`, `k2 = dt*g(x + 0.5*k1)`,
`k3 = dt*g(x + 0.5*k2)`, `k4 = dt*g(x + k3)`,
`x ← x + (1/6)*(k1 + 2*k2 + 2*k3 + k4)`. -/
def rk4_step (g : V → V) (dt : ℚ) (x : V) : V :=
  let k1 := dt • g x
  let k2 := dt • g (x + (1 / 2 : ℚ) • k1)
  let k3 := dt • g (x + (1 / 2 : ℚ) • k2)
  let k4 := dt • g (x + k3)
  x + (1 / 6 : ℚ) • (k1 + (2 : ℚ) • k2 + (2 : ℚ) • k3 + k4)

/-- The solution array written by `rk4`'s loop: `solution[0] = x`, and each of
the following `n` entries is obtained from its predecessor by `rk4_step`. -/
def rk4_loop (g : V → V) (dt : ℚ) : ℕ → V → List V
  | 0, x => [x]
  | n + 1, x => x :: rk4_loop g dt n (rk4_step g dt x)

/-- Embedding of `rk4(g, x0, t_end, dt)` from the PHNN notebook:
`num_steps = int(t_end / dt)` steps of the classical scheme starting at `x0`
(for the nonnegative quotients of interest, Python's `int` truncation is the
floor). -/
def rk4 (g : V → V) (x0 : V) (t_end dt : ℚ) : List V :=
  rk4_loop g dt (⌊t_end / dt⌋).toNat x0

theorem rk4_loop_length (g : V → V) (dt : ℚ) (n : ℕ) (x : V) :
    (rk4_loop g dt n x).length = n + 1 := by
  induction n generalizing x with
  | zero => rfl
  | succ n ih => simp [rk4_loop, ih]

theorem rk4_loop_get (g : V → V) (dt : ℚ) (n : ℕ) (x : V) (i : ℕ) (hi : i ≤ n) :
    (rk4_loop g dt n x).get? i = some ((rk4_step g dt)^[i] x) := by
  induction n generalizing x i with
  | zero =>
    rw [Nat.le_zero.mp hi]
    rfl
  | succ n ih =>
    cases i with
    | zero => rfl
    | succ i =>
      rw [rk4_loop, List.get?_cons_succ, ih (rk4_step g dt x) i (Nat.le_of_succ_le_succ hi),
        Function.iterate_succ_apply]

/-- C2: for every vector field `g`, initial state `x0`, horizon `t_end ≥ 0`
and step size `dt > 0`, `rk4` returns the ordered sequence of
`int(t_end/dt) + 1` states whose first element is `x0` and whose `(i+1)`-th
element arises from the `i`-th state `x` by the classical 4-stage 4th-order
update `x + (k1 + 2*k2 + 2*k3 + k4)/6` with `k1 = dt*g(x)`,
`k2 = dt*g(x + k1/2)`, `k3 = dt*g(x + k2/2)`, `k4 = dt*g(x + k3)`, using the
same constant step `dt` at every step (no adaptive step-size control); the
returned sequence starts with the unmodified input state `x0`. -/
theorem rk4_spec (g : V → V) (x0 : V) (t_end dt : ℚ) (ht : 0 ≤ t_end) (hdt : 0 < dt) :
    (rk4 g x0 t_end dt).length = (⌊t_end / dt⌋).toNat + 1 ∧
      (rk4 g x0 t_end dt).get? 0 = some x0 ∧
      ∀ i < (⌊t_end / dt⌋).toNat, ∃ x k1 k2 k3 k4,
        (rk4 g x0 t_end dt).get? i = some x ∧
        k1 = dt • g x ∧
        k2 = dt • g (x + (1 / 2 : ℚ) • k1) ∧
        k3 = dt • g (x + (1 / 2 : ℚ) • k2) ∧
        k4 = dt • g (x + k3) ∧
        (rk4 g x0 t_end dt).get? (i + 1) =
          some (x + (1 / 6 : ℚ) • (k1 + (2 : ℚ) • k2 + (2 : ℚ) • k3 + k4)) := by
  refine ⟨rk4_loop_length g dt _ x0, rk4_loop_get g dt _ x0 0 (Nat.zero_le _), ?_⟩
  intro i hi
  refine ⟨(rk4_step g dt)^[i] x0, _, _, _, _,
    rk4_loop_get g dt _ x0 i (Nat.le_of_lt hi), rfl, rfl, rfl, rfl, ?_⟩
  show (rk4_loop g dt (⌊t_end / dt⌋).toNat x0).get? (i + 1) = _
  rw [rk4_loop_get g dt _ x0 (i + 1) hi, Function.iterate_succ_apply']
  rfl

/-- Witness for C2: the scalar field `g = id` over `ℚ`, `x0 = 1`, `t_end = 1`,
`dt = 1/2`. -/
theorem rk4_spec_witness :
    (0 : ℚ) ≤ 1 ∧ (0 : ℚ) < 1 / 2 ∧
      ((rk4 (fun x : ℚ => x) 1 1 (1 / 2)).length = (⌊(1 : ℚ) / (1 / 2)⌋).toNat + 1 ∧
        (rk4 (fun x : ℚ => x) 1 1 (1 / 2)).get? 0 = some 1 ∧
        ∀ i < (⌊(1 : ℚ) / (1 / 2)⌋).toNat, ∃ x k1 k2 k3 k4,
          (rk4 (fun x : ℚ => x) 1 1 (1 / 2)).get? i = some x ∧
          k1 = (1 / 2 : ℚ) • x ∧
          k2 = (1 / 2 : ℚ) • (x + (1 / 2 : ℚ) • k1) ∧
          k3 = (1 / 2 : ℚ) • (x + (1 / 2 : ℚ) • k2) ∧
          k4 = (1 / 2 : ℚ) • (x + k3) ∧
          (rk4 (fun x : ℚ => x) 1 1 (1 / 2)).get? (i + 1) =
            some (x + (1 / 6 : ℚ) • (k1 + (2 : ℚ) • k2 + (2 : ℚ) • k3 + k4))) :=
  ⟨by norm_num, by norm_num, rk4_spec (fun x : ℚ => x) 1 1 (1 / 2) (by norm_num) (by norm_num)⟩

end RK4

/-! ### The finite-difference matrices of `setup_KdV_system` -/

/-- The forward-difference matrix
`Dp = 1/dx * spdiags([e,-e,e], [-M+1, 0, 1], M, M)`: the value `1` on
diagonals `-M+1` and `1`, `-1` on the main diagonal, everything times `1/dx`
(the data vectors `e` are constant, so every entry of a diagonal carries the
diagonal's value). -/
def Dp (M : ℕ) (dx : ℚ) (i j : Fin M) : ℚ :=
  1 / dx * ((if ((j : ℕ) : ℤ) - ((i : ℕ) : ℤ) = -(M : ℤ) + 1 then 1 else 0)
    + (if ((j : ℕ) : ℤ) - ((i : ℕ) : ℤ) = 0 then -1 else 0)
    + (if ((j : ℕ) : ℤ) - ((i : ℕ) : ℤ) = 1 then 1 else 0))

/-- The central-difference matrix
`D1 = .5/dx * spdiags([e,-e,e,-e], [-M+1, -1, 1, M-1], M, M)`, as the entry
formula of the matrix `spdiags` produces when its construction succeeds, i.e.
when the four offsets are pairwise distinct (`M ≥ 3`); `D1_build` below
models the construction itself, including the `ValueError` that
`scipy.sparse.dia_matrix` raises on duplicate offsets (which happens at
`M = 2`, where `-M+1 = -1` and `1 = M-1`). -/
def D1 (M : ℕ) (dx : ℚ) (i j : Fin M) : ℚ :=
  1 / 2 / dx * ((if ((j : ℕ) : ℤ) - ((i : ℕ) : ℤ) = -(M : ℤ) + 1 then 1 else 0)
    + (if ((j : ℕ) : ℤ) - ((i : ℕ) : ℤ) = -1 then -1 else 0)
    + (if ((j : ℕ) : ℤ) - ((i : ℕ) : ℤ) = 1 then 1 else 0)
    + (if ((j : ℕ) : ℤ) - ((i : ℕ) : ℤ) = (M : ℤ) - 1 then -1 else 0))

/-- The second-order central-difference matrix
`D2 = 1/dx**2 * spdiags([e,e,-2*e,e,e], [-M+1, -1, 0, 1, M-1], M, M)`, again
as the entry formula of the successfully constructed matrix; `D2_build`
models the construction with its duplicate-offset `ValueError` (raised at
`M = 2`). -/
def D2 (M : ℕ) (dx : ℚ) (i j : Fin M) : ℚ :=
  1 / dx ^ 2 * ((if ((j : ℕ) : ℤ) - ((i : ℕ) : ℤ) = -(M : ℤ) + 1 then 1 else 0)
    + (if ((j : ℕ) : ℤ) - ((i : ℕ) : ℤ) = -1 then 1 else 0)
    + (if ((j : ℕ) : ℤ) - ((i : ℕ) : ℤ) = 0 then -2 else 0)
    + (if ((j : ℕ) : ℤ) - ((i : ℕ) : ℤ) = 1 then 1 else 0)
    + (if ((j : ℕ) : ℤ) - ((i : ℕ) : ℤ) = (M : ℤ) - 1 then 1 else 0))

/-- The diagonal offsets `[-M+1, 0, 1]` passed to `spdiags` for `Dp`. -/
def Dp_offsets (M : ℕ) : List ℤ := [-(M : ℤ) + 1, 0, 1]

/-- The diagonal offsets `[-M+1, -1, 1, M-1]` passed to `spdiags` for `D1`. -/
def D1_offsets (M : ℕ) : List ℤ := [-(M : ℤ) + 1, -1, 1, (M : ℤ) - 1]

/-- The diagonal offsets `[-M+1, -1, 0, 1, M-1]` passed to `spdiags` for `D2`. -/
def D2_offsets (M : ℕ) : List ℤ := [-(M : ℤ) + 1, -1, 0, 1, (M : ℤ) - 1]

/-- The construction of `Dp` by `spdiags` in `setup_KdV_system`:
`scipy.sparse.dia_matrix` raises `ValueError` when the offsets array contains
duplicate values, aborting the run (`none`); otherwise the matrix with the
constant diagonals is returned. -/
def Dp_build (M : ℕ) (dx : ℚ) : Option (Fin M → Fin M → ℚ) :=
  if (Dp_offsets M).Nodup then some (Dp M dx) else none

/-- The construction of `D1` by `spdiags`, with the duplicate-offset
`ValueError` modelled as `none`. -/
def D1_build (M : ℕ) (dx : ℚ) : Option (Fin M → Fin M → ℚ) :=
  if (D1_offsets M).Nodup then some (D1 M dx) else none

/-- The construction of `D2` by `spdiags`, with the duplicate-offset
`ValueError` modelled as `none`. -/
def D2_build (M : ℕ) (dx : ℚ) : Option (Fin M → Fin M → ℚ) :=
  if (D2_offsets M).Nodup then some (D2 M dx) else none

theorem fin_sub_emod (M : ℕ) (i j : Fin M) :
    (((j : ℕ) : ℤ) - ((i : ℕ) : ℤ)) % M = ((j : ℕ) : ℤ) - ((i : ℕ) : ℤ) ∨
      (((j : ℕ) : ℤ) - ((i : ℕ) : ℤ)) % M = ((j : ℕ) : ℤ) - ((i : ℕ) : ℤ) + M := by
  have hi : ((i : ℕ) : ℤ) < M := Int.ofNat_lt.mpr i.isLt
  have hj : ((j : ℕ) : ℤ) < M := Int.ofNat_lt.mpr j.isLt
  have hi0 : (0 : ℤ) ≤ ((i : ℕ) : ℤ) := Int.ofNat_nonneg _
  have hj0 : (0 : ℤ) ≤ ((j : ℕ) : ℤ) := Int.ofNat_nonneg _
  rcases le_or_lt 0 (((j : ℕ) : ℤ) - ((i : ℕ) : ℤ)) with h2 | h2
  · exact Or.inl (Int.emod_eq_of_lt h2 (by omega))
  · refine Or.inr ?_
    rw [← Int.add_emod_self (a := ((j : ℕ) : ℤ) - ((i : ℕ) : ℤ)) (b := (M : ℤ))]
    exact Int.emod_eq_of_lt (by omega) (by omega)

theorem Dp_entry_circulant (M : ℕ) (hM : 2 ≤ M) (dx : ℚ) (i j k l : Fin M)
    (h : (((j : ℕ) : ℤ) - ((i : ℕ) : ℤ)) % M = (((l : ℕ) : ℤ) - ((k : ℕ) : ℤ)) % M) :
    Dp M dx i j = Dp M dx k l := by
  have hi : ((i : ℕ) : ℤ) < M := Int.ofNat_lt.mpr i.isLt
  have hj : ((j : ℕ) : ℤ) < M := Int.ofNat_lt.mpr j.isLt
  have hk : ((k : ℕ) : ℤ) < M := Int.ofNat_lt.mpr k.isLt
  have hl : ((l : ℕ) : ℤ) < M := Int.ofNat_lt.mpr l.isLt
  have hi0 : (0 : ℤ) ≤ ((i : ℕ) : ℤ) := Int.ofNat_nonneg _
  have hj0 : (0 : ℤ) ≤ ((j : ℕ) : ℤ) := Int.ofNat_nonneg _
  have hk0 : (0 : ℤ) ≤ ((k : ℕ) : ℤ) := Int.ofNat_nonneg _
  have hl0 : (0 : ℤ) ≤ ((l : ℕ) : ℤ) := Int.ofNat_nonneg _
  have hM2 : (2 : ℤ) ≤ M := by exact_mod_cast hM
  have hdj := fin_sub_emod M i j
  have hdl := fin_sub_emod M k l
  have hrel : ((j : ℕ) : ℤ) - ((i : ℕ) : ℤ) = ((l : ℕ) : ℤ) - ((k : ℕ) : ℤ) ∨
      ((j : ℕ) : ℤ) - ((i : ℕ) : ℤ) = ((l : ℕ) : ℤ) - ((k : ℕ) : ℤ) + M ∨
      ((j : ℕ) : ℤ) - ((i : ℕ) : ℤ) = ((l : ℕ) : ℤ) - ((k : ℕ) : ℤ) - M := by omega
  unfold Dp
  congr 1
  rcases hrel with h1 | h1 | h1 <;> rw [h1]
  · simp only [(by omega : (((l : ℕ) : ℤ) - ((k : ℕ) : ℤ) + M = 1) ↔
        (((l : ℕ) : ℤ) - ((k : ℕ) : ℤ) = -(M : ℤ) + 1))]
    rw [if_neg (by omega : ¬(((l : ℕ) : ℤ) - ((k : ℕ) : ℤ) + M = -(M : ℤ) + 1)),
      if_neg (by omega : ¬(((l : ℕ) : ℤ) - ((k : ℕ) : ℤ) + M = 0)),
      if_neg (by omega : ¬(((l : ℕ) : ℤ) - ((k : ℕ) : ℤ) = 0)),
      if_neg (by omega : ¬(((l : ℕ) : ℤ) - ((k : ℕ) : ℤ) = 1))]
    ring
  · simp only [(by omega : (((l : ℕ) : ℤ) - ((k : ℕ) : ℤ) - M = -(M : ℤ) + 1) ↔
        (((l : ℕ) : ℤ) - ((k : ℕ) : ℤ) = 1))]
    rw [if_neg (by omega : ¬(((l : ℕ) : ℤ) - ((k : ℕ) : ℤ) - M = 0)),
      if_neg (by omega : ¬(((l : ℕ) : ℤ) - ((k : ℕ) : ℤ) - M = 1)),
      if_neg (by omega : ¬(((l : ℕ) : ℤ) - ((k : ℕ) : ℤ) = -(M : ℤ) + 1)),
      if_neg (by omega : ¬(((l : ℕ) : ℤ) - ((k : ℕ) : ℤ) = 0))]
    ring

theorem D1_entry_circulant (M : ℕ) (hM : 2 ≤ M) (dx : ℚ) (i j k l : Fin M)
    (h : (((j : ℕ) : ℤ) - ((i : ℕ) : ℤ)) % M = (((l : ℕ) : ℤ) - ((k : ℕ) : ℤ)) % M) :
    D1 M dx i j = D1 M dx k l := by
  have hi : ((i : ℕ) : ℤ) < M := Int.ofNat_lt.mpr i.isLt
  have hj : ((j : ℕ) : ℤ) < M := Int.ofNat_lt.mpr j.isLt
  have hk : ((k : ℕ) : ℤ) < M := Int.ofNat_lt.mpr k.isLt
  have hl : ((l : ℕ) : ℤ) < M := Int.ofNat_lt.mpr l.isLt
  have hi0 : (0 : ℤ) ≤ ((i : ℕ) : ℤ) := Int.ofNat_nonneg _
  have hj0 : (0 : ℤ) ≤ ((j : ℕ) : ℤ) := Int.ofNat_nonneg _
  have hk0 : (0 : ℤ) ≤ ((k : ℕ) : ℤ) := Int.ofNat_nonneg _
  have hl0 : (0 : ℤ) ≤ ((l : ℕ) : ℤ) := Int.ofNat_nonneg _
  have hM2 : (2 : ℤ) ≤ M := by exact_mod_cast hM
  have hdj := fin_sub_emod M i j
  have hdl := fin_sub_emod M k l
  have hrel : ((j : ℕ) : ℤ) - ((i : ℕ) : ℤ) = ((l : ℕ) : ℤ) - ((k : ℕ) : ℤ) ∨
      ((j : ℕ) : ℤ) - ((i : ℕ) : ℤ) = ((l : ℕ) : ℤ) - ((k : ℕ) : ℤ) + M ∨
      ((j : ℕ) : ℤ) - ((i : ℕ) : ℤ) = ((l : ℕ) : ℤ) - ((k : ℕ) : ℤ) - M := by omega
  unfold D1
  congr 1
  rcases hrel with h1 | h1 | h1 <;> rw [h1]
  · simp only [(by omega : (((l : ℕ) : ℤ) - ((k : ℕ) : ℤ) + M = 1) ↔
        (((l : ℕ) : ℤ) - ((k : ℕ) : ℤ) = -(M : ℤ) + 1)),
      (by omega : (((l : ℕ) : ℤ) - ((k : ℕ) : ℤ) + M = (M : ℤ) - 1) ↔
        (((l : ℕ) : ℤ) - ((k : ℕ) : ℤ) = -1))]
    rw [if_neg (by omega : ¬(((l : ℕ) : ℤ) - ((k : ℕ) : ℤ) + M = -(M : ℤ) + 1)),
      if_neg (by omega : ¬(((l : ℕ) : ℤ) - ((k : ℕ) : ℤ) + M = -1)),
      if_neg (by omega : ¬(((l : ℕ) : ℤ) - ((k : ℕ) : ℤ) = 1)),
      if_neg (by omega : ¬(((l : ℕ) : ℤ) - ((k : ℕ) : ℤ) = (M : ℤ) - 1))]
    ring
  · simp only [(by omega : (((l : ℕ) : ℤ) - ((k : ℕ) : ℤ) - M = -(M : ℤ) + 1) ↔
        (((l : ℕ) : ℤ) - ((k : ℕ) : ℤ) = 1)),
      (by omega : (((l : ℕ) : ℤ) - ((k : ℕ) : ℤ) - M = -1) ↔
        (((l : ℕ) : ℤ) - ((k : ℕ) : ℤ) = (M : ℤ) - 1))]
    rw [if_neg (by omega : ¬(((l : ℕ) : ℤ) - ((k : ℕ) : ℤ) - M = 1)),
      if_neg (by omega : ¬(((l : ℕ) : ℤ) - ((k : ℕ) : ℤ) - M = (M : ℤ) - 1)),
      if_neg (by omega : ¬(((l : ℕ) : ℤ) - ((k : ℕ) : ℤ) = -(M : ℤ) + 1)),
      if_neg (by omega : ¬(((l : ℕ) : ℤ) - ((k : ℕ) : ℤ) = -1))]
    ring

theorem D2_entry_circulant (M : ℕ) (hM : 2 ≤ M) (dx : ℚ) (i j k l : Fin M)
    (h : (((j : ℕ) : ℤ) - ((i : ℕ) : ℤ)) % M = (((l : ℕ) : ℤ) - ((k : ℕ) : ℤ)) % M) :
    D2 M dx i j = D2 M dx k l := by
  have hi : ((i : ℕ) : ℤ) < M := Int.ofNat_lt.mpr i.isLt
  have hj : ((j : ℕ) : ℤ) < M := Int.ofNat_lt.mpr j.isLt
  have hk : ((k : ℕ) : ℤ) < M := Int.ofNat_lt.mpr k.isLt
  have hl : ((l : ℕ) : ℤ) < M := Int.ofNat_lt.mpr l.isLt
  have hi0 : (0 : ℤ) ≤ ((i : ℕ) : ℤ) := Int.ofNat_nonneg _
  have hj0 : (0 : ℤ) ≤ ((j : ℕ) : ℤ) := Int.ofNat_nonneg _
  have hk0 : (0 : ℤ) ≤ ((k : ℕ) : ℤ) := Int.ofNat_nonneg _
  have hl0 : (0 : ℤ) ≤ ((l : ℕ) : ℤ) := Int.ofNat_nonneg _
  have hM2 : (2 : ℤ) ≤ M := by exact_mod_cast hM
  have hdj := fin_sub_emod M i j
  have hdl := fin_sub_emod M k l
  have hrel : ((j : ℕ) : ℤ) - ((i : ℕ) : ℤ) = ((l : ℕ) : ℤ) - ((k : ℕ) : ℤ) ∨
      ((j : ℕ) : ℤ) - ((i : ℕ) : ℤ) = ((l : ℕ) : ℤ) - ((k : ℕ) : ℤ) + M ∨
      ((j : ℕ) : ℤ) - ((i : ℕ) : ℤ) = ((l : ℕ) : ℤ) - ((k : ℕ) : ℤ) - M := by omega
  unfold D2
  congr 1
  rcases hrel with h1 | h1 | h1 <;> rw [h1]
  · simp only [(by omega : (((l : ℕ) : ℤ) - ((k : ℕ) : ℤ) + M = 1) ↔
        (((l : ℕ) : ℤ) - ((k : ℕ) : ℤ) = -(M : ℤ) + 1)),
      (by omega : (((l : ℕ) : ℤ) - ((k : ℕ) : ℤ) + M = (M : ℤ) - 1) ↔
        (((l : ℕ) : ℤ) - ((k : ℕ) : ℤ) = -1))]
    rw [if_neg (by omega : ¬(((l : ℕ) : ℤ) - ((k : ℕ) : ℤ) + M = -(M : ℤ) + 1)),
      if_neg (by omega : ¬(((l : ℕ) : ℤ) - ((k : ℕ) : ℤ) + M = -1)),
      if_neg (by omega : ¬(((l : ℕ) : ℤ) - ((k : ℕ) : ℤ) + M = 0)),
      if_neg (by omega : ¬(((l : ℕ) : ℤ) - ((k : ℕ) : ℤ) = 0)),
      if_neg (by omega : ¬(((l : ℕ) : ℤ) - ((k : ℕ) : ℤ) = 1)),
      if_neg (by omega : ¬(((l : ℕ) : ℤ) - ((k : ℕ) : ℤ) = (M : ℤ) - 1))]
    ring
  · simp only [(by omega : (((l : ℕ) : ℤ) - ((k : ℕ) : ℤ) - M = -(M : ℤ) + 1) ↔
        (((l : ℕ) : ℤ) - ((k : ℕ) : ℤ) = 1)),
      (by omega : (((l : ℕ) : ℤ) - ((k : ℕ) : ℤ) - M = -1) ↔
        (((l : ℕ) : ℤ) - ((k : ℕ) : ℤ) = (M : ℤ) - 1))]
    rw [if_neg (by omega : ¬(((l : ℕ) : ℤ) - ((k : ℕ) : ℤ) - M = 0)),
      if_neg (by omega : ¬(((l : ℕ) : ℤ) - ((k : ℕ) : ℤ) - M = 1)),
      if_neg (by omega : ¬(((l : ℕ) : ℤ) - ((k : ℕ) : ℤ) - M = (M : ℤ) - 1)),
      if_neg (by omega : ¬(((l : ℕ) : ℤ) - ((k : ℕ) : ℤ) = -(M : ℤ) + 1)),
      if_neg (by omega : ¬(((l : ℕ) : ℤ) - ((k : ℕ) : ℤ) = -1)),
      if_neg (by omega : ¬(((l : ℕ) : ℤ) - ((k : ℕ) : ℤ) = 0))]
    ring

/-- C5 counterexample: the claim fails at grid size `M = 2`: there
`setup_KdV_system` constructs no central-difference matrices at all, because
the offset lists of `D1` (`[-1, -1, 1, 1]`) and `D2` (`[-1, -1, 0, 1, 1]`)
contain duplicates and `scipy.sparse.spdiags`/`dia_matrix` raises
`ValueError`, aborting the run — so it is not the case that for every
`M ≥ 2` the three matrices are constructed and circulant. -/
theorem setup_KdV_D1_D2_abort_at_M2 :
    D1_build 2 1 = none ∧ D2_build 2 1 = none :=
  ⟨by rw [D1_build, if_neg (by decide)], by rw [D2_build, if_neg (by decide)]⟩

/-- C5 (amended): for every grid size `M ≥ 3`, the three `spdiags`
constructions of `setup_KdV_system` succeed (their diagonal offsets are
pairwise distinct) and the constructed forward-difference matrix `Dp`,
central-difference matrix `D1` and second-order central-difference matrix
`D2` are circulant: entry `(i, j)` of each depends only on `(j - i) mod M`,
so the periodic boundary condition is encoded exactly.  At `M = 2` the
constructions of `D1` and `D2` abort with a duplicate-offset `ValueError`
instead. -/
theorem setup_KdV_build_circulant (M : ℕ) (hM : 3 ≤ M) (dx : ℚ) (i j k l : Fin M)
    (h : (((j : ℕ) : ℤ) - ((i : ℕ) : ℤ)) % M = (((l : ℕ) : ℤ) - ((k : ℕ) : ℤ)) % M) :
    ∃ A B C, Dp_build M dx = some A ∧ D1_build M dx = some B ∧ D2_build M dx = some C ∧
      A i j = A k l ∧ B i j = B k l ∧ C i j = C k l := by
  have hM2 : 2 ≤ M := by omega
  have hMz : (3 : ℤ) ≤ (M : ℤ) := by exact_mod_cast hM
  have hDp : (Dp_offsets M).Nodup := by
    unfold Dp_offsets
    simp only [List.nodup_cons, List.mem_cons, List.mem_singleton, List.not_mem_nil,
      or_false, List.nodup_nil, and_true, not_or, not_false_eq_true]
    omega
  have hD1 : (D1_offsets M).Nodup := by
    unfold D1_offsets
    simp only [List.nodup_cons, List.mem_cons, List.mem_singleton, List.not_mem_nil,
      or_false, List.nodup_nil, and_true, not_or, not_false_eq_true]
    omega
  have hD2 : (D2_offsets M).Nodup := by
    unfold D2_offsets
    simp only [List.nodup_cons, List.mem_cons, List.mem_singleton, List.not_mem_nil,
      or_false, List.nodup_nil, and_true, not_or, not_false_eq_true]
    omega
  refine ⟨Dp M dx, D1 M dx, D2 M dx, ?_, ?_, ?_,
    Dp_entry_circulant M hM2 dx i j k l h, D1_entry_circulant M hM2 dx i j k l h,
    D2_entry_circulant M hM2 dx i j k l h⟩
  · rw [Dp_build, if_pos hDp]
  · rw [D1_build, if_pos hD1]
  · rw [D2_build, if_pos hD2]

/-- Witness for the amended C5: on the 4-by-4 grid all three constructions
succeed and the entries `(0, 1)` and `(2, 3)` (both on residue class
`1 mod 4`) coincide in each matrix. -/
theorem setup_KdV_build_circulant_witness :
    3 ≤ 4 ∧
      ((((1 : Fin 4) : ℕ) : ℤ) - (((0 : Fin 4) : ℕ) : ℤ)) % (4 : ℕ) =
        ((((3 : Fin 4) : ℕ) : ℤ) - (((2 : Fin 4) : ℕ) : ℤ)) % (4 : ℕ) ∧
      (∃ A B C, Dp_build 4 1 = some A ∧ D1_build 4 1 = some B ∧ D2_build 4 1 = some C ∧
        A 0 1 = A 2 3 ∧ B 0 1 = B 2 3 ∧ C 0 1 = C 2 3) :=
  ⟨by norm_num, by decide, setup_KdV_build_circulant 4 (by norm_num) 1 0 1 2 3 (by decide)⟩

/-! ### The batching reshape of the PHNN notebook -/

section Reshape

variable {α : Type} {N TRAJ : ℕ}

/-- Embedding of `torch.split(x_midpoint, 1, dim=2)`: the `TRAJ` chunks of size one along
dimension 2; chunk `j` has shape `N × 2 × 1` and holds trajectory `j`. -/
def split_dim2 (x : Fin N → Fin 2 → Fin TRAJ → α) :
    Fin TRAJ → Fin N → Fin 2 → Fin 1 → α :=
  fun j i c _ => x i c j

/-- Embedding of `torch.stack(splits, dim=0)`: the `TRAJ` chunks stacked along a new
leading dimension, giving shape `TRAJ × N × 2 × 1`. -/
def stack_dim0 (xs : Fin TRAJ → Fin N → Fin 2 → Fin 1 → α) :
    Fin TRAJ → Fin N → Fin 2 → Fin 1 → α :=
  fun j => xs j

/-- The `.squeeze(2)` step on a tensor of shape `TRAJ × N × 2 × 1`: dimension 2 has
size 2, not 1, so `squeeze` leaves the tensor unchanged (the trailing
size-one dimension is absorbed by the subsequent reshape instead). -/
def squeeze_dim2 (x : Fin TRAJ → Fin N → Fin 2 → Fin 1 → α) :
    Fin TRAJ → Fin N → Fin 2 → Fin 1 → α :=
  x

/-- The `.reshape(-1, 2)` step on a `TRAJ × N × 2 × 1` tensor: row-major (C-order)
reinterpretation as a `TRAJ*N × 2` tensor.  Output position `(r, c)` has flat
index `q = r*2 + c`, which decomposes over the input shape as indices
`(q/(2*N), q/2 % N, q % 2, q % 1)`. -/
def reshape_rows [NeZero N] [NeZero TRAJ] (x : Fin TRAJ → Fin N → Fin 2 → Fin 1 → α) :
    Fin (TRAJ * N) → Fin 2 → α :=
  fun r c =>
    x ⟨(r.1 * 2 + c.1) / (2 * N) % TRAJ, Nat.mod_lt _ (Nat.pos_of_ne_zero (NeZero.ne TRAJ))⟩
      ⟨(r.1 * 2 + c.1) / 2 % N, Nat.mod_lt _ (Nat.pos_of_ne_zero (NeZero.ne N))⟩
      ⟨(r.1 * 2 + c.1) % 2, Nat.mod_lt _ (by omega)⟩
      ⟨(r.1 * 2 + c.1) % 1, Nat.mod_lt _ (by omega)⟩

/-- The pipeline producing `x_midpoint_reshaped` (and, identically,
`dxdt_reshaped`) from `x_midpoint` of shape `N × 2 × TRAJ`:
`torch.stack(torch.split(x, 1, dim=2), dim=0).squeeze(2).reshape(-1, 2)`. -/
def x_midpoint_reshaped [NeZero N] [NeZero TRAJ] (x : Fin N → Fin 2 → Fin TRAJ → α) :
    Fin (TRAJ * N) → Fin 2 → α :=
  reshape_rows (squeeze_dim2 (stack_dim0 (split_dim2 x)))

/-- C7: for every trajectory count `TRAJ ≥ 1` and time-step count `N ≥ 1`,
the split/stack/squeeze/reshape pipeline applied to `x_midpoint` of shape
`N × 2 × TRAJ` yields exactly `TRAJ * N` rows of dimension 2 (the type of
`x_midpoint_reshaped`), and row `j * N + i` equals the midpoint state
`x_midpoint[i, :, j]`, so the original trajectory count and time-step count
are recovered exactly; the same holds for `dxdt_reshaped`, which is produced
by the identical pipeline. -/
theorem x_midpoint_reshaped_roundtrip [NeZero N] [NeZero TRAJ]
    (x : Fin N → Fin 2 → Fin TRAJ → α) (i j : ℕ) (hi : i < N) (hj : j < TRAJ)
    (hr : j * N + i < TRAJ * N) (c : Fin 2) :
    x_midpoint_reshaped x ⟨j * N + i, hr⟩ c = x ⟨i, hi⟩ c ⟨j, hj⟩ := by
  have hN : 0 < N := Nat.pos_of_ne_zero (NeZero.ne N)
  have hc : (c : ℕ) < 2 := c.isLt
  have h0 : ((j * N + i) * 2 + (c : ℕ)) / (2 * N) % TRAJ = j := by
    have hq : (j * N + i) * 2 + (c : ℕ) = 2 * N * j + (2 * i + (c : ℕ)) := by ring
    rw [hq, Nat.mul_add_div (by omega), Nat.div_eq_of_lt (by omega), Nat.add_zero,
      Nat.mod_eq_of_lt hj]
  have h1 : ((j * N + i) * 2 + (c : ℕ)) / 2 % N = i := by
    have hd : ((j * N + i) * 2 + (c : ℕ)) / 2 = j * N + i := by omega
    rw [hd, mul_comm j N, Nat.mul_add_mod, Nat.mod_eq_of_lt hi]
  have h2 : ((j * N + i) * 2 + (c : ℕ)) % 2 = (c : ℕ) := by omega
  simp only [x_midpoint_reshaped, reshape_rows, squeeze_dim2, stack_dim0, split_dim2]
  simp only [h0, h1, h2, Fin.eta]

/-- Witness for C7 at `N = 2`, `TRAJ = 3`, with entries encoding their own
index as `100*i + 10*c + j`. -/
theorem x_midpoint_reshaped_roundtrip_witness :
    1 < 2 ∧ 2 < 3 ∧ 2 * 2 + 1 < 3 * 2 ∧
      x_midpoint_reshaped
          (fun (i : Fin 2) (c : Fin 2) (j : Fin 3) => 100 * (i : ℕ) + 10 * (c : ℕ) + (j : ℕ))
          ⟨2 * 2 + 1, by norm_num⟩ 0 =
        100 * ((⟨1, by norm_num⟩ : Fin 2) : ℕ) + 10 * ((0 : Fin 2) : ℕ)
          + ((⟨2, by norm_num⟩ : Fin 3) : ℕ) :=
  ⟨by norm_num, by norm_num, by norm_num,
    x_midpoint_reshaped_roundtrip
      (fun (i : Fin 2) (c : Fin 2) (j : Fin 3) => 100 * (i : ℕ) + 10 * (c : ℕ) + (j : ℕ))
      1 2 (by norm_num) (by norm_num) (by norm_num) 0⟩

end Reshape

/-! ### Physics collocation points of the PINN experiment -/

theorem zero_mem_t_train : (0 : ℚ) ∈ t_train := by
  unfold t_train linspace
  refine List.mem_map.mpr ⟨0, by simp, by norm_num⟩

theorem t_train_le_tmax : ∀ u ∈ t_train, u ≤ TMAX_TRAIN := by
  intro u hu
  unfold t_train linspace at hu
  rcases List.mem_map.mp hu with ⟨a, ha, rfl⟩
  have ha21 : a < N_TRAIN + 1 := by simpa using ha
  have h20 : (a : ℚ) ≤ 20 := by
    have h : a ≤ 20 := by
      have h2 := ha21
      simp only [N_TRAIN] at h2
      omega
    exact_mod_cast h
  rw [TMAX_TRAIN, show ((N_TRAIN + 1 : ℕ) : ℚ) - 1 = 20 by norm_num [N_TRAIN]]
  linarith

/-- C8 counterexample: the claim that for every run the collocation points
`t_phys = np.random.uniform(0, TMAX_PHYS, N_PHYS)` are disjoint from the
training times `t_train` is false: the uniform draw is not excluded from
hitting a training time, and a run whose draw returns `0.0` (a value
`numpy`'s `uniform(0, 7)` can return) produces a collocation point equal to
the training time `t_train[0] = 0`. -/
theorem t_phys_not_always_disjoint :
    ¬ ∀ draw : Fin N_PHYS → ℚ, (∀ a, 0 ≤ draw a ∧ draw a < TMAX_PHYS) →
      ∀ (a : Fin N_PHYS) (t : ℚ), t ∈ t_train → draw a ≠ t := by
  intro hall
  exact hall (fun _ => 0) (fun a => by norm_num [TMAX_PHYS])
    ⟨0, by norm_num [N_PHYS]⟩ 0 zero_mem_t_train rfl

/-- C8 (amended): the code does not enforce disjointness of the collocation
points from the training times; what holds is that in every run all of whose
draws exceed `TMAX_TRAIN = 2`, the collocation points are disjoint from the
training times, because every training time lies in `[0, TMAX_TRAIN]`. -/
theorem t_phys_disjoint_when_beyond_train (draw : Fin N_PHYS → ℚ)
    (hd : ∀ a, TMAX_TRAIN < draw a) (a : Fin N_PHYS) (t : ℚ) (ht : t ∈ t_train) :
    draw a ≠ t := by
  exact ne_of_gt (lt_of_le_of_lt (t_train_le_tmax t ht) (hd a))

/-- Witness for the amended C8 at the constant draw `3`. -/
theorem t_phys_disjoint_when_beyond_train_witness :
    (∀ a : Fin N_PHYS, TMAX_TRAIN < (3 : ℚ)) ∧ (0 : ℚ) ∈ t_train ∧ (3 : ℚ) ≠ 0 :=
  ⟨fun _ => by norm_num [TMAX_TRAIN], zero_mem_t_train,
    t_phys_disjoint_when_beyond_train (fun _ => 3) (fun _ => by norm_num [TMAX_TRAIN])
      ⟨0, by norm_num [N_PHYS]⟩ 0 zero_mem_t_train⟩

/-! ### The PHNN model for the mass-spring system -/

/-- The stored structure matrix `self.S = [[0, 1], [-1, 0]]` of `PHNN`. -/
def S0 : Matrix (Fin 2) (Fin 2) ℚ := Matrix.of ![![0, 1], ![-1, 0]]

/-- The structure matrix used by `PHNN.forward`: a detached clone of `S0`
whose entry `S[1, 1]` is overwritten with `-mu`. -/
def Smat (mu : ℚ) : Matrix (Fin 2) (Fin 2) ℚ :=
  fun a b => if a = 1 ∧ b = 1 then -mu else S0 a b

/-- Embedding of `PHNN.forward(x) = (S @ dH.T).T`, per sample: the structure matrix applied
to `dH = grad(hamiltonian)(x)`, the autodiff gradient of the learned
Hamiltonian network, which enters as an arbitrary function `gradH`. -/
def PHNN_forward {β : Type} (mu : ℚ) (gradH : β → Fin 2 → ℚ) (x : β) : Fin 2 → ℚ :=
  (Smat mu).mulVec (gradH x)

/-- C9: for the PHNN model with damping coefficient `mu = 0` (the Hamiltonian
case), the model output conserves the learned Hamiltonian exactly: for every
input state `x` and every learned gradient function, the inner product of
`grad H(x)` with the predicted vector field `PHNN.forward(x)` is zero,
because `forward` returns `S` applied to `grad H(x)` with the skew-symmetric
structure matrix `S = [[0, 1], [-1, 0]]`. -/
theorem phnn_hamiltonian_conserved {β : Type} (gradH : β → Fin 2 → ℚ) (x : β) :
    Matrix.dotProduct (gradH x) (PHNN_forward 0 gradH x) = 0 := by
  simp only [Matrix.dotProduct, PHNN_forward, Matrix.mulVec, Smat, S0, Fin.sum_univ_two,
    Matrix.of_apply, Matrix.cons_val_zero, Matrix.cons_val_one, Matrix.head_cons,
    Fin.isValue]
  norm_num
  ring

/-! ### The HNN model for the KdV equation -/

section HNNKdV

variable {m : ℕ}

/-- The periodic padding of the Hamiltonian gradient in `HNN.forward`:
`dH_padded = torch.cat([dH[..., M-1:], dH, dH[..., :1]], dim=-1)`: position 0
holds `dH[M-1]`, positions `1..M` hold `dH[0..M-1]`, position `M+1` holds
`dH[0]`. -/
def pad_grad [NeZero m] (dH : Fin m → ℚ) : Fin (m + 2) → ℚ :=
  fun j =>
    if h0 : j.1 = 0 then dH ⟨m - 1, by have := Nat.pos_of_ne_zero (NeZero.ne m); omega⟩
    else if h : j.1 ≤ m then dH ⟨j.1 - 1, by omega⟩
    else dH ⟨0, Nat.pos_of_ne_zero (NeZero.ne m)⟩

/-- The convolution kernel `S = torch.tensor([-1., 0., 1.]) / (2 * dx)` of
`HNN.forward`. -/
def conv_kernel (dx : ℚ) : Fin 3 → ℚ := fun k => ![(-1 : ℚ), 0, 1] k / (2 * dx)

/-- Embedding of `HNN.forward(u, dx) = conv1d(dH_padded, S)`: the cross-correlation of the
periodically padded Hamiltonian gradient with the stencil `(-1, 0, 1)/(2*dx)`;
output `i` is `Σ_k S[k] * dH_padded[i + k]`.  The autodiff gradient `dH` of
the learned Hamiltonian enters as an arbitrary function argument. -/
def HNN_forward [NeZero m] (dH : Fin m → ℚ) (dx : ℚ) : Fin m → ℚ :=
  fun i => ∑ k : Fin 3,
    conv_kernel dx k * pad_grad dH ⟨i.1 + k.1, by have := i.2; have := k.2; omega⟩

/-- The padded gradient as a function on `ℕ` (zero out of range), used to
telescope the circular difference. -/
def pad_ext [NeZero m] (dH : Fin m → ℚ) : ℕ → ℚ :=
  fun n => if h : n < m + 2 then pad_grad dH ⟨n, h⟩ else 0

/-- C10: for every input state (through its Hamiltonian gradient `dH`) and
every spatial step `dx > 0`, the entries of `HNN.forward(u, dx)` in the KdV
notebook sum to zero over the spatial grid: the output is a circular central
difference, and every circular difference of a finite sequence telescopes to
zero, so the discrete total mass of the predicted time derivative is exactly
conserved. -/
theorem hnn_forward_sum_zero [NeZero m] (dH : Fin m → ℚ) (dx : ℚ) (hdx : 0 < dx) :
    ∑ i : Fin m, HNN_forward dH dx i = 0 := by
  have hm : 0 < m := Nat.pos_of_ne_zero (NeZero.ne m)
  have key : ∀ i : Fin m,
      HNN_forward dH dx i = (pad_ext dH (i.1 + 2) - pad_ext dH i.1) / (2 * dx) := by
    intro i
    have hlt : i.1 < m := i.2
    unfold HNN_forward conv_kernel pad_ext
    rw [Fin.sum_univ_three]
    rw [dif_pos (by omega : i.1 + 2 < m + 2), dif_pos (by omega : i.1 < m + 2)]
    simp only [Fin.val_zero, Fin.val_one, Fin.val_two, Matrix.cons_val_zero,
      Matrix.cons_val_one, Matrix.head_cons, Matrix.cons_val_two, Matrix.tail_cons,
      Nat.add_zero]
    ring
  rw [Finset.sum_congr rfl (fun i _ => key i)]
  rw [← Finset.sum_div]
  have hsum : ∑ i : Fin m, (pad_ext dH (i.1 + 2) - pad_ext dH i.1) =
      ∑ i ∈ Finset.range m, (pad_ext dH (i + 2) - pad_ext dH i) :=
    Fin.sum_univ_eq_sum_range (fun n => pad_ext dH (n + 2) - pad_ext dH n) m
  rw [hsum]
  have hsplit : ∀ i, pad_ext dH (i + 2) - pad_ext dH i =
      (pad_ext dH (i + 1 + 1) - pad_ext dH (i + 1)) + (pad_ext dH (i + 1) - pad_ext dH i) := by
    intro i
    ring_nf
  rw [Finset.sum_congr rfl (fun i _ => hsplit i), Finset.sum_add_distrib,
    Finset.sum_range_sub (fun i => pad_ext dH (i + 1)), Finset.sum_range_sub (pad_ext dH)]
  have e0 : pad_ext dH 0 = dH ⟨m - 1, by omega⟩ := by
    unfold pad_ext pad_grad
    rw [dif_pos (by omega), dif_pos rfl]
  have e1 : pad_ext dH 1 = dH ⟨0, hm⟩ := by
    unfold pad_ext pad_grad
    rw [dif_pos (by omega)]
    simp only [dif_neg (by omega : ¬(1 = 0)), dif_pos (by omega : 1 ≤ m)]
  have em : pad_ext dH m = dH ⟨m - 1, by omega⟩ := by
    unfold pad_ext pad_grad
    rw [dif_pos (by omega)]
    simp only [dif_neg (by omega : ¬(m = 0)), dif_pos (le_refl m)]
  have em1 : pad_ext dH (m + 1) = dH ⟨0, hm⟩ := by
    unfold pad_ext pad_grad
    rw [dif_pos (by omega)]
    simp only [dif_neg (by omega : ¬(m + 1 = 0)), dif_neg (by omega : ¬(m + 1 ≤ m))]
  rw [e0, e1, em, em1]
  ring

/-- Witness for C10 on a 3-point grid with gradient `(1, 2, 3)` and `dx = 1`. -/
theorem hnn_forward_sum_zero_witness :
    (0 : ℚ) < 1 ∧ ∑ i : Fin 3, HNN_forward (![1, 2, 3] : Fin 3 → ℚ) 1 i = 0 :=
  ⟨by norm_num, hnn_forward_sum_zero (![1, 2, 3] : Fin 3 → ℚ) 1 (by norm_num)⟩

end HNNKdV

end NLDL

